import Mathlib

/-!
Shallow embedding of the replicated ("Kafka-style") log node from
`src/bin/kafka_style_log.rs`, together with theorems checking the
natural-language specification against it.

Modelling conventions:
* Rust `HashMap<K, V>` becomes an association list `List (K × V)`;
  `insert`/`extend` overwrite the first matching key, `entry(k).or_default()`
  modifies the first matching key in place or appends a fresh one.
* Rust `HashSet<LogEntry>` (with the custom `PartialEq`/`Hash` on
  `(key, offset, msg_id)`) becomes a `List LogEntry` whose `insert` keeps the
  existing element when one with the same identity is present.
* Rust `HashSet<NodeId>` becomes a `List String` with insert-if-absent;
  Rust's `==` on such sets is set equality (`strSetEq`).
* Panics (`expect`) are modelled by `Option`: `none` is the assertion failure.
-/

abbrev NodeId := String
abbrev KeyId := String
abbrev Offset := Nat

/-- String-set membership-insert, mirroring `HashSet<NodeId>::insert`. -/
def setInsert (l : List NodeId) (x : NodeId) : List NodeId :=
  if x ∈ l then l else l ++ [x]

/-- Set equality of two `HashSet<NodeId>` values (Rust `==` on hash sets). -/
def strSetEq (a b : List NodeId) : Prop :=
  (∀ x ∈ a, x ∈ b) ∧ (∀ x ∈ b, x ∈ a)

instance (a b : List NodeId) : Decidable (strSetEq a b) := by
  unfold strSetEq; infer_instance

/-- `LogEntry` from the source: message id, key, offset, payload value and the
set of nodes known to hold the entry. -/
structure LogEntry where
  msg_id : Nat
  key : KeyId
  offset : Offset
  msg : Nat
  seen_by : List NodeId
deriving DecidableEq, Repr

/-- The identity used by the source's `PartialEq`/`Hash` for `LogEntry`:
key, offset and msg_id (seen_by and msg are ignored). -/
def LogEntry.sameId (a b : LogEntry) : Prop :=
  a.key = b.key ∧ a.offset = b.offset ∧ a.msg_id = b.msg_id

instance (a b : LogEntry) : Decidable (a.sameId b) := by
  unfold LogEntry.sameId; infer_instance

/-- `HashSet<LogEntry>::insert`: keeps the already-stored entry when one with
the same `(key, offset, msg_id)` identity is present. -/
def hsInsert (s : List LogEntry) (e : LogEntry) : List LogEntry :=
  if s.any (fun x => decide (x.sameId e)) then s else s ++ [e]

/-- `HashSet<LogEntry>::extend`: insert every element in turn. -/
def hsExtend (s : List LogEntry) (es : List LogEntry) : List LogEntry :=
  es.foldl hsInsert s

/-- Generic `HashMap::get`. -/
def kvGet {α β : Type} [DecidableEq α] (m : List (α × β)) (k : α) : Option β :=
  (m.find? (fun p => decide (p.1 = k))).map (fun p => p.2)

/-- Generic `HashMap::insert`: overwrite the first matching key or append. -/
def kvSet {α β : Type} [DecidableEq α] : List (α × β) → α → β → List (α × β)
  | [], k, v => [(k, v)]
  | p :: rest, k, v => if p.1 = k then (k, v) :: rest else p :: kvSet rest k v

/-- `Logs = HashMap<KeyId, HashSet<LogEntry>>` from the source. -/
abbrev Logs := List (KeyId × List LogEntry)

/-- `HashMap::get` on `Logs`. -/
def logsGet (l : Logs) (k : KeyId) : Option (List LogEntry) :=
  kvGet l k

/-- `HashMap::contains_key` on `Logs`. -/
def logsContainsKey (l : Logs) (k : KeyId) : Bool :=
  (logsGet l k).isSome

/-- The entry set stored for key `k` (empty when the key is absent). -/
def tierEntries (l : Logs) (k : KeyId) : List LogEntry :=
  (logsGet l k).getD []

/-- Lookup of the stored entry with the same identity as `rep` for key `k`. -/
def tierFind (l : Logs) (k : KeyId) (rep : LogEntry) : Option LogEntry :=
  (tierEntries l k).find? (fun x => decide (x.sameId rep))

/-- `map.entry(k).or_default()` followed by an in-place modification `f`. -/
def logsModify : Logs → KeyId → (List LogEntry → List LogEntry) → Logs
  | [], k, f => [(k, f [])]
  | (k', s) :: rest, k, f =>
    if k' = k then (k', f s) :: rest else (k', s) :: logsModify rest k f

/-- `map.insert(k, v)` on `Logs`: overwrite the first matching key or append. -/
def logsSet (l : Logs) (k : KeyId) (v : List LogEntry) : Logs :=
  kvSet l k v

/-- `map.entry(k).or_default().insert(e)` from the source. -/
def logsInsertEntry (l : Logs) (k : KeyId) (e : LogEntry) : Logs :=
  logsModify l k (fun s => hsInsert s e)

/-- `HashMap::extend` on `Logs`: each key of `new` overwrites the old value. -/
def logsExtendMap (l : Logs) (new : Logs) : Logs :=
  new.foldl (fun acc p => logsSet acc p.1 p.2) l

/-- Adding the local node id to an entry's `seen_by`, as done by
`append_committed` / `append_uncommitted` before insertion. -/
def stampWith (src : NodeId) (e : LogEntry) : LogEntry :=
  { e with seen_by := setInsert e.seen_by src }

/-- `LogStore` from the source. -/
structure LogStore where
  src : NodeId
  uncommitted_logs : Logs
  committed_logs : Logs
deriving DecidableEq, Repr

namespace LogStore

/-- `LogStore::new`. -/
def new (src : NodeId) : LogStore :=
  ⟨src, [], []⟩

/-- `LogStore::init`. -/
def init (s : LogStore) (src : NodeId) : LogStore :=
  { s with src := src }

/-- The common loop of `append_committed` / `append_uncommitted`: stamp each
incoming entry with the local node id and insert it into its key's set. -/
def appendTier (src : NodeId) (tier : Logs) (logs : Logs) : Logs :=
  logs.foldl
    (fun acc p => p.2.foldl (fun a e => logsInsertEntry a p.1 (stampWith src e)) acc)
    tier

/-- `LogStore::append_committed`: every incoming entry gets the local node
added to its `seen_by` and is inserted into the committed tier of its key. -/
def append_committed (s : LogStore) (logs : Logs) : LogStore :=
  { s with committed_logs := appendTier s.src s.committed_logs logs }

/-- `LogStore::append_uncommitted`: same as `append_committed` but into the
uncommitted tier. -/
def append_uncommitted (s : LogStore) (logs : Logs) : LogStore :=
  { s with uncommitted_logs := appendTier s.src s.uncommitted_logs logs }

/-- `LogStore::append`: a fresh client write enters the uncommitted tier with
`seen_by = {self}`. -/
def append (s : LogStore) (key : KeyId) (msg_id offset msg : Nat) : LogStore :=
  { s with uncommitted_logs :=
      logsInsertEntry s.uncommitted_logs key ⟨msg_id, key, offset, msg, [s.src]⟩ }

/-- `LogStore::commit`: for each requested key, move every uncommitted entry
with `entry.offset <= offset` to the committed tier. There is no
committed-offset watermark and no monotonicity check in the source. -/
def commit (s : LogStore) (offsets : List (KeyId × Offset)) : LogStore :=
  offsets.foldl
    (fun st p =>
      match logsGet st.uncommitted_logs p.1 with
      | none => st
      | some entries =>
        if entries.isEmpty then st
        else
          let committed := entries.filter (fun l => decide (l.offset ≤ p.2))
          let remaining := entries.filter (fun l => decide (p.2 < l.offset))
          { st with
            uncommitted_logs := logsSet st.uncommitted_logs p.1 remaining,
            committed_logs := logsModify st.committed_logs p.1
              (fun cs => hsExtend cs committed) })
    s

end LogStore

/-- `SeenLogs` from the source: the per-neighbor mirror of the two tiers. -/
structure SeenLogs where
  uncommitted : Logs
  committed : Logs
deriving DecidableEq, Repr

/-- The merge performed by `handle_gossip` on the log store: the committed part
of the payload goes through `append_committed`, the uncommitted part through
`append_uncommitted` (in that order, as in the source). -/
def LogStore.mergeGossip (s : LogStore) (seen : SeenLogs) : LogStore :=
  (s.append_committed seen.committed).append_uncommitted seen.uncommitted

/-- The mutable state of `KafkaStyleLogNode` (writer and timers excluded; the
messages a handler would write are returned as values instead). -/
structure NodeState where
  node_id : NodeId
  message_id : Nat
  cluster : List NodeId
  neighbors : List NodeId
  known : List (NodeId × SeenLogs)
  log_store : LogStore
  anchored_uncommitted_logs : Logs
  anchored_committed_logs : Logs
  gossip_batch_size : Nat
deriving DecidableEq, Repr

/-- `KafkaStyleLogNode::new`: the pre-init state with the sentinel id. -/
def newNode : NodeState :=
  ⟨"uninit", 0, [], [], [], LogStore.new "uninit", [], [], 200⟩

/-- `handle_init`: record the id, neighbors (cluster minus self), the full
cluster, a default peer-knowledge record per neighbor, and reply `init_ok`. -/
def handle_init (st : NodeState) (node_id : NodeId) (node_ids : List NodeId) :
    NodeState :=
  let nodes := (node_ids.filter (fun n => decide (n ≠ node_id))).dedup
  let cluster := setInsert nodes node_id
  let known := nodes.foldl (fun acc n => kvSet acc n ⟨[], []⟩) st.known
  { st with
    node_id := node_id
    neighbors := nodes
    cluster := cluster
    known := known
    log_store := st.log_store.init node_id
    message_id := st.message_id + 1 }

/-- Modelled from the spec: the OffsetAllocator is an external collaborator
(`redis incr` in the source's `main`), an atomically incremented, globally
shared per-key counter. Redis `INCRBY key 1` treats a missing key as 0 and
returns the value after the increment, so the first allocation for a key
returns 1. -/
def redisIncr (counter : List (KeyId × Nat)) (k : KeyId) :
    Nat × List (KeyId × Nat) :=
  let old := (kvGet counter k).getD 0
  (old + 1, kvSet counter k (old + 1))

/-- `handle_send`: allocate an offset from the external counter, append to the
uncommitted tier, reply `send_ok{offset}`. Returns the new node state, the new
counter state and the offset sent back to the client. -/
def handle_send (st : NodeState) (counter : List (KeyId × Nat)) (key : KeyId)
    (msg : Nat) : NodeState × List (KeyId × Nat) × Nat :=
  let r := redisIncr counter key
  let store := st.log_store.append key st.message_id r.1 msg
  ({ st with log_store := store, message_id := st.message_id + 1 }, r.2, r.1)

/-- `LogEntry::filter_and_map_by_offset`: entries with `offset >= o`, collected
into a `HashMap<offset, msg>` (later inserts overwrite). -/
def filter_and_map_by_offset (entries : List LogEntry) (offset : Nat) :
    List (Nat × Nat) :=
  (entries.filter (fun l => decide (offset ≤ l.offset))).foldl
    (fun m l => kvSet m l.offset l.msg) []

/-- `KafkaStyleLogNode::filter_logs`. -/
def filter_logs (logs : Logs) (key : KeyId) (offset : Nat) : List (Nat × Nat) :=
  if logsContainsKey logs key then
    filter_and_map_by_offset (tierEntries logs key) offset
  else []

/-- `handle_poll` body: for each requested key, the anchored-committed matches
extended (overwritten) by the anchored-uncommitted matches. Only the two
anchored stores are consulted. -/
def handle_poll_msgs (st : NodeState) (offsets : List (KeyId × Nat)) :
    List (KeyId × List (Nat × Nat)) :=
  offsets.foldl
    (fun msgs p =>
      let fromCommitted := filter_logs st.anchored_committed_logs p.1 p.2
      let both := (filter_logs st.anchored_uncommitted_logs p.1 p.2).foldl
        (fun m q => kvSet m q.1 q.2) fromCommitted
      kvSet msgs p.1 both)
    []

/-- Insertion step of the `poll_ok` serializer's `sort_by_key`. -/
def insertSortedPair (p : Nat × Nat) : List (Nat × Nat) → List (Nat × Nat)
  | [] => [p]
  | q :: rest => if p.1 ≤ q.1 then p :: q :: rest else q :: insertSortedPair p rest

/-- Ascending sort by offset, as done by `serialize_as_pairs`. -/
def sortPairs (l : List (Nat × Nat)) : List (Nat × Nat) :=
  l.foldr insertSortedPair []

/-- The wire content of `poll_ok`: `handle_poll`'s map with each key's pairs
sorted ascending by offset (`serialize_as_pairs`). -/
def poll_reply (st : NodeState) (offsets : List (KeyId × Nat)) :
    List (KeyId × List (Nat × Nat)) :=
  (handle_poll_msgs st offsets).map (fun p => (p.1, sortPairs p.2))

/-- `handle_commit_offsets`: delegate to `LogStore::commit`, reply ok. -/
def handle_commit_offsets (st : NodeState) (offsets : List (KeyId × Offset)) :
    NodeState :=
  { st with log_store := st.log_store.commit offsets,
            message_id := st.message_id + 1 }

/-- `handle_list_committed_offsets`: per requested key, the size of the entry
set in the anchored-committed store; keys absent there are skipped. -/
def handle_list_committed_offsets (st : NodeState) (keys : List KeyId) :
    List (KeyId × Nat) :=
  keys.foldl
    (fun offsets key =>
      match logsGet st.anchored_committed_logs key with
      | none => offsets
      | some entries => kvSet offsets key entries.length)
    []

/-- One tier pass of `anchor_messages`: split each key's entries by
`seen_by == cluster`; completed entries move to the anchored store. Returns
the remaining tier and the updated anchored store. -/
def anchorTier (cluster : List NodeId) : Logs → Logs → Logs × Logs
  | [], anchored => ([], anchored)
  | p :: rest, anchored =>
    let anch := p.2.filter (fun e => decide (strSetEq e.seen_by cluster))
    let keep := p.2.filter (fun e => !decide (strSetEq e.seen_by cluster))
    let r := anchorTier cluster rest
      (logsModify anchored p.1 (fun s => hsExtend s anch))
    ((p.1, keep) :: r.1, r.2)

/-- `anchor_messages`: run `anchorTier` on the uncommitted and the committed
tier. -/
def anchor_messages (st : NodeState) : NodeState :=
  let ru := anchorTier st.cluster st.log_store.uncommitted_logs
    st.anchored_uncommitted_logs
  let rc := anchorTier st.cluster st.log_store.committed_logs
    st.anchored_committed_logs
  { st with
    log_store := { st.log_store with uncommitted_logs := ru.1, committed_logs := rc.1 }
    anchored_uncommitted_logs := ru.2
    anchored_committed_logs := rc.2 }

/-- `handle_anchor`: no-op before init, otherwise `anchor_messages`. -/
def handle_anchor (st : NodeState) : NodeState :=
  if st.node_id = "uninit" then st else anchor_messages st

/-- `handle_gossip`: `known.get_mut(src).expect("Unknown node")` is the
assertion modelled by `none`; otherwise extend the peer record, merge both
payload tiers into the log store and anchor. -/
def handle_gossip (st : NodeState) (src : NodeId) (seen : SeenLogs) :
    Option NodeState :=
  match kvGet st.known src with
  | none => none
  | some node =>
    let known2 := kvSet st.known src
      ⟨logsExtendMap node.uncommitted seen.uncommitted,
       logsExtendMap node.committed seen.committed⟩
    let store := (st.log_store.append_committed seen.committed).append_uncommitted
      seen.uncommitted
    some (anchor_messages { st with known := known2, log_store := store })

/-- The condition under which `handle_trigger_gossip` includes a committed
entry of `key` in the delta for `neighbor`. -/
def condCommitted (known : List (NodeId × SeenLogs)) (neighbor : NodeId)
    (key : KeyId) : Bool :=
  match kvGet known neighbor with
  | none => true
  | some n => !(logsContainsKey n.committed key)

/-- The condition for an uncommitted entry. The source checks
`known.contains_key(key)` (the log key against the map of node ids); when that
is true it calls `known.get(neighbor).expect("Unknown node")`, which can
panic (`none`). -/
def condUncommitted (known : List (NodeId × SeenLogs)) (neighbor : NodeId)
    (key : KeyId) : Option Bool :=
  if (kvGet known key).isSome then
    match kvGet known neighbor with
    | none => none
    | some n => some (!(logsContainsKey n.uncommitted key))
  else some true

/-- Inner loop of the delta computation over one key's entries, with the
`len() == batch` break after every entry. -/
def collectEntries (cond : Option Bool) (batch : Nat) (key : KeyId) :
    List LogEntry → Logs → Option Logs
  | [], acc => some acc
  | e :: es, acc =>
    match cond with
    | none => none
    | some c =>
      let acc2 := if c then logsInsertEntry acc key e else acc
      if acc2.length = batch then some acc2
      else collectEntries cond batch key es acc2

/-- Outer loop of the delta computation over a tier, with the
`len() == batch` break after every key. -/
def collectTier (condFor : KeyId → Option Bool) (batch : Nat) :
    Logs → Logs → Option Logs
  | [], acc => some acc
  | p :: rest, acc =>
    match collectEntries (condFor p.1) batch p.1 p.2 acc with
    | none => none
    | some acc2 =>
      if acc2.length = batch then some acc2
      else collectTier condFor batch rest acc2

/-- The `SeenLogs` delta computed for one neighbor by `handle_trigger_gossip`
(committed tier first, then uncommitted, as in the source). -/
def computeDelta (st : NodeState) (neighbor : NodeId) : Option SeenLogs :=
  match collectTier (fun k => some (condCommitted st.known neighbor k))
      st.gossip_batch_size st.log_store.committed_logs [] with
  | none => none
  | some com =>
    match collectTier (fun k => condUncommitted st.known neighbor k)
        st.gossip_batch_size st.log_store.uncommitted_logs [] with
    | none => none
    | some unc => some ⟨unc, com⟩

/-- Option-valued `map` over a list, failing when any element fails. -/
def mapOpt {α β : Type} (f : α → Option β) : List α → Option (List β)
  | [] => some []
  | x :: xs =>
    match f x with
    | none => none
    | some y =>
      match mapOpt f xs with
      | none => none
      | some ys => some (y :: ys)

/-- Second phase of `handle_trigger_gossip`: extend each messaged neighbor's
peer record with the delta just sent (`expect("Unknown node")` is `none`). -/
def updateKnownAll : List (NodeId × SeenLogs) → List (NodeId × SeenLogs) →
    Option (List (NodeId × SeenLogs))
  | [], known => some known
  | p :: rest, known =>
    match kvGet known p.1 with
    | none => none
    | some node =>
      updateKnownAll rest (kvSet known p.1
        ⟨logsExtendMap node.uncommitted p.2.uncommitted,
         logsExtendMap node.committed p.2.committed⟩)

/-- Third phase, innermost: for every sent entry, take it out of the tier and
re-insert it with the neighbor added to `seen_by`.
`get_mut(key).expect("Invalid key")` is the `none` case. -/
def stampEntries (neighbor : NodeId) (key : KeyId) :
    List LogEntry → Logs → Option Logs
  | [], tier => some tier
  | u :: us, tier =>
    match logsGet tier key with
    | none => none
    | some entries =>
      let entries2 :=
        match entries.find? (fun x => decide (x.sameId u)) with
        | some e =>
          hsInsert (entries.filter (fun x => !decide (x.sameId u)))
            { e with seen_by := setInsert e.seen_by neighbor }
        | none => entries
      stampEntries neighbor key us (logsSet tier key entries2)

/-- Third phase over all keys of one delta tier. -/
def stampTier (neighbor : NodeId) : Logs → Logs → Option Logs
  | [], tier => some tier
  | p :: rest, tier =>
    match stampEntries neighbor p.1 p.2 tier with
    | none => none
    | some tier2 => stampTier neighbor rest tier2

/-- Third phase for one neighbor's delta: uncommitted side first, then
committed, as in the source. -/
def stampDelta (neighbor : NodeId) (store : LogStore) (d : SeenLogs) :
    Option LogStore :=
  match stampTier neighbor d.uncommitted store.uncommitted_logs with
  | none => none
  | some unc =>
    match stampTier neighbor d.committed store.committed_logs with
    | none => none
    | some com =>
      some { store with uncommitted_logs := unc, committed_logs := com }

/-- Third phase over all messaged neighbors. -/
def stampAll : List (NodeId × SeenLogs) → LogStore → Option LogStore
  | [], store => some store
  | p :: rest, store =>
    match stampDelta p.1 store p.2 with
    | none => none
    | some store2 => stampAll rest store2

/-- The per-neighbor deltas of one gossip trigger (phase one over all
neighbors). -/
def gossipDeltas (st : NodeState) : Option (List (NodeId × SeenLogs)) :=
  mapOpt (fun n => (computeDelta st n).map (fun d => (n, d))) st.neighbors

/-- The source's filter keeping only neighbors with a non-empty delta. -/
def gossipMsgsOf (deltas : List (NodeId × SeenLogs)) :
    List (NodeId × SeenLogs) :=
  deltas.filter (fun p => !(p.2.uncommitted.isEmpty && p.2.committed.isEmpty))

/-- `handle_trigger_gossip`: early return before init or with no neighbors;
otherwise compute a delta per neighbor, keep the non-empty ones as outgoing
`Gossip` messages, optimistically extend peer knowledge, and stamp every sent
entry's `seen_by` with its neighbor. Returns the new state and the list of
(destination, payload) messages written. -/
def handle_trigger_gossip (st : NodeState) :
    Option (NodeState × List (NodeId × SeenLogs)) :=
  if st.neighbors.isEmpty ∨ st.node_id = "uninit" then some (st, [])
  else
    (gossipDeltas st).bind (fun deltas =>
      (updateKnownAll (gossipMsgsOf deltas) st.known).bind (fun known2 =>
        (stampAll (gossipMsgsOf deltas) st.log_store).map (fun store2 =>
          ({ st with
               known := known2
               log_store := store2
               message_id :=
                 if (gossipMsgsOf deltas).isEmpty then st.message_id
                 else st.message_id + 1 },
           gossipMsgsOf deltas))))

/-- Strict first-wins variant of `Option.or`, used to state lookup
characterizations of the merge operations. -/
def oElse {α : Type} (a b : Option α) : Option α :=
  match a with
  | some x => some x
  | none => b

/-- All entries a payload holds under key `k`, in iteration order. -/
def payEntries : Logs → KeyId → List LogEntry
  | [], _ => []
  | p :: rest, k => if p.1 = k then p.2 ++ payEntries rest k else payEntries rest k

/-- No `(key, offset, msg_id)` identity occurs both in `P` and in `Q` under the
same key: the condition under which two gossip payloads merge commutatively. -/
def tierIdsDisjoint (P Q : Logs) : Prop :=
  ∀ p ∈ P, ∀ e ∈ p.2, ∀ x ∈ payEntries Q p.1, ¬ x.sameId e

instance (P Q : Logs) : Decidable (tierIdsDisjoint P Q) := by
  unfold tierIdsDisjoint; infer_instance

/-- The association list has pairwise-distinct keys (the `HashMap` invariant of
every map the running node actually builds). -/
def keysNodup {α β : Type} (l : List (α × β)) : Prop :=
  (l.map (fun p => p.1)).Nodup

instance {α β : Type} [DecidableEq α] (l : List (α × β)) :
    Decidable (keysNodup l) := by
  unfold keysNodup; infer_instance

/-- Cap-free reference semantics of one key's delta-collection loop. -/
def pureEntries (c : Bool) (key : KeyId) (es : List LogEntry) (acc : Logs) :
    Logs :=
  if c then es.foldl (fun a e => logsInsertEntry a key e) acc else acc

/-- Cap-free reference semantics of the delta-collection loops: include every
entry of every key whose condition holds. -/
def collectPure (condB : KeyId → Bool) (tier : Logs) (acc : Logs) : Logs :=
  tier.foldl (fun a p => pureEntries (condB p.1) p.1 p.2 a) acc

section ConcreteStates

/-- C1: one stored entry, in the live uncommitted tier, with offset 0. -/
def e_c1 : LogEntry := ⟨0, "x", 0, 10, ["n1"]⟩

def st_c1 : NodeState :=
  ⟨"n1", 1, ["n1", "n2"], ["n2"], [("n2", ⟨[], []⟩)],
   ⟨"n1", [("x", [e_c1])], []⟩, [], [], 200⟩

/-- C1 witness state: two anchored entries for "x", one below the poll offset. -/
def stw_c1 : NodeState :=
  ⟨"n1", 1, ["n1", "n2"], ["n2"], [("n2", ⟨[], []⟩)], ⟨"n1", [], []⟩,
   [("x", [⟨1, "x", 2, 30, ["n1", "n2"]⟩])],
   [("x", [⟨0, "x", 1, 20, ["n1", "n2"]⟩, ⟨2, "x", 0, 5, ["n1", "n2"]⟩])], 200⟩

/-- C2: stored entry and an incoming duplicate with a larger seen-by set. -/
def s_c2 : LogStore := ⟨"n1", [], [("x", [⟨0, "x", 0, 10, ["n1"]⟩])]⟩

def p_c2 : Logs := [("x", [⟨0, "x", 0, 10, ["n2", "n3"]⟩])]

/-- C3: an already-anchored entry, later carried again by gossip from n2. -/
def anch_c3 : LogEntry := ⟨0, "x", 0, 10, ["n1", "n2", "n3"]⟩

def st_c3 : NodeState :=
  ⟨"n1", 5, ["n1", "n2", "n3"], ["n2", "n3"], [("n2", ⟨[], []⟩), ("n3", ⟨[], []⟩)],
   ⟨"n1", [], []⟩, [], [("x", [anch_c3])], 200⟩

def seen_c3 : SeenLogs := ⟨[], [("x", [⟨0, "x", 0, 10, ["n2"]⟩])]⟩

/-- The `(key, offset, msg_id)` identity of the anchored C3 entry. -/
def rep_c3 : LogEntry := ⟨0, "x", 0, 0, []⟩

/-- C3 witness state: a committed entry whose seen-by set just became the full
cluster. -/
def stw_c3 : NodeState :=
  ⟨"n1", 0, ["n1", "n2"], ["n2"], [],
   ⟨"n1", [], [("x", [⟨0, "x", 0, 10, ["n2", "n1"]⟩])]⟩, [], [], 200⟩

/-- C4: two payloads carrying the same `(key, offset, msg_id)` identity with
different seen-by sets. -/
def s_c4 : LogStore := ⟨"n1", [], []⟩

def sA_c4 : SeenLogs := ⟨[], [("x", [⟨0, "x", 0, 10, ["n2"]⟩])]⟩

def sB_c4 : SeenLogs := ⟨[], [("x", [⟨0, "x", 0, 10, ["n3"]⟩])]⟩

def rep_c4 : LogEntry := ⟨0, "x", 0, 0, []⟩

/-- C4 witness payloads: identity-disjoint. -/
def sA2_c4 : SeenLogs := ⟨[("y", [⟨1, "y", 0, 7, ["n2"]⟩])], [("x", [⟨0, "x", 0, 10, ["n2"]⟩])]⟩

def sB2_c4 : SeenLogs := ⟨[], [("x", [⟨2, "x", 1, 11, ["n3"]⟩])]⟩

/-- C5: commit at 5, then an uncommitted entry at offset 2 arrives via gossip,
then commit at 3. -/
def s_c5 : LogStore := ⟨"n1", [("x", [⟨0, "x", 5, 50, ["n1"]⟩])], []⟩

def mid_c5 : LogStore :=
  (s_c5.commit [("x", 5)]).append_uncommitted [("x", [⟨7, "x", 2, 20, ["n2"]⟩])]

def fin_c5 : LogStore := mid_c5.commit [("x", 3)]

/-- C6: the neighbor n2 is already known to have the only uncommitted entry. -/
def e_c6 : LogEntry := ⟨0, "x", 1, 10, ["n1", "n2"]⟩

def st_c6 : NodeState :=
  ⟨"n1", 5, ["n2", "n1"], ["n2"], [("n2", ⟨[("x", [e_c6])], []⟩)],
   ⟨"n1", [("x", [e_c6])], []⟩, [], [], 200⟩

/-- The delta actually sent to n2 on the C6 trigger. -/
def d_c6 : SeenLogs := ⟨[("x", [e_c6])], []⟩

/-- The node state after the C6 trigger (only message_id advanced; stamping
and the known-map extension leave the already-converged values unchanged). -/
def st2_c6 : NodeState :=
  ⟨"n1", 6, ["n2", "n1"], ["n2"], [("n2", ⟨[("x", [e_c6])], []⟩)],
   ⟨"n1", [("x", [e_c6])], []⟩, [], [], 200⟩

/-- C7: one entry in the live committed tier, anchored-committed store empty. -/
def st_c7 : NodeState :=
  ⟨"n1", 1, ["n1", "n2"], ["n2"], [],
   ⟨"n1", [], [("x", [⟨0, "x", 0, 10, ["n1"]⟩])]⟩, [], [], 200⟩

/-- C8: fresh three-node cluster, first send of key "x" to n1. -/
def st_c8 : NodeState := handle_init newNode "n1" ["n1", "n2", "n3"]

def send_c8 : NodeState × List (KeyId × Nat) × Nat := handle_send st_c8 [] "x" 10

end ConcreteStates

section BasicLemmas

theorem sameId_symm {a b : LogEntry} (h : a.sameId b) : b.sameId a :=
  ⟨h.1.symm, h.2.1.symm, h.2.2.symm⟩

theorem sameId_trans {a b c : LogEntry} (h1 : a.sameId b) (h2 : b.sameId c) :
    a.sameId c :=
  ⟨h1.1.trans h2.1, h1.2.1.trans h2.2.1, h1.2.2.trans h2.2.2⟩

theorem stampWith_sameId (src : NodeId) (e rep : LogEntry) :
    (stampWith src e).sameId rep ↔ e.sameId rep := Iff.rfl

@[simp] theorem oElse_some {α : Type} (x : α) (b : Option α) :
    oElse (some x) b = some x := rfl

@[simp] theorem oElse_none {α : Type} (b : Option α) : oElse none b = b := rfl

@[simp] theorem oElse_none_right {α : Type} (a : Option α) : oElse a none = a := by
  cases a <;> rfl

@[simp] theorem kvGet_nil {α β : Type} [DecidableEq α] (k : α) :
    kvGet ([] : List (α × β)) k = none := rfl

theorem kvGet_cons {α β : Type} [DecidableEq α] (p : α × β) (rest : List (α × β))
    (k : α) : kvGet (p :: rest) k = if p.1 = k then some p.2 else kvGet rest k := by
  by_cases h : p.1 = k
  · rw [kvGet, List.find?_cons_of_pos _ (by simpa using h)]
    simp [h]
  · rw [kvGet, List.find?_cons_of_neg _ (by simpa using h), if_neg h, kvGet]

theorem kvGet_set_self {α β : Type} [DecidableEq α] (m : List (α × β)) (k : α)
    (v : β) : kvGet (kvSet m k v) k = some v := by
  induction m with
  | nil => simp [kvSet, kvGet_cons]
  | cons p rest ih =>
    by_cases h : p.1 = k
    · simp [kvSet, h, kvGet_cons]
    · simp [kvSet, h, kvGet_cons, ih]

theorem kvGet_set_other {α β : Type} [DecidableEq α] (m : List (α × β)) (k k' : α)
    (v : β) (h : k' ≠ k) : kvGet (kvSet m k v) k' = kvGet m k' := by
  induction m with
  | nil => simp [kvSet, kvGet_cons, Ne.symm h]
  | cons p rest ih =>
    by_cases hp : p.1 = k
    · subst hp
      simp [kvSet, kvGet_cons, Ne.symm h, h]
    · simp [kvSet, hp, kvGet_cons, ih]

theorem logsGet_set_self (l : Logs) (k : KeyId) (v : List LogEntry) :
    logsGet (logsSet l k v) k = some v := kvGet_set_self l k v

theorem logsGet_set_other (l : Logs) (k k' : KeyId) (v : List LogEntry)
    (h : k' ≠ k) : logsGet (logsSet l k v) k' = logsGet l k' :=
  kvGet_set_other l k k' v h

@[simp] theorem logsGet_nil (k : KeyId) : logsGet [] k = none := rfl

theorem logsGet_cons (p : KeyId × List LogEntry) (rest : Logs) (k : KeyId) :
    logsGet (p :: rest) k = if p.1 = k then some p.2 else logsGet rest k :=
  kvGet_cons p rest k

theorem logsGet_modify_self (l : Logs) (k : KeyId)
    (f : List LogEntry → List LogEntry) :
    logsGet (logsModify l k f) k = some (f (tierEntries l k)) := by
  induction l with
  | nil => simp [logsModify, logsGet_cons, tierEntries]
  | cons p rest ih =>
    obtain ⟨k', s⟩ := p
    by_cases h : k' = k
    · subst h
      simp [logsModify, logsGet_cons, tierEntries]
    · simp [logsModify, h, logsGet_cons, ih, tierEntries]

theorem logsGet_modify_other (l : Logs) (k k' : KeyId)
    (f : List LogEntry → List LogEntry) (h : k' ≠ k) :
    logsGet (logsModify l k f) k' = logsGet l k' := by
  induction l with
  | nil => simp [logsModify, logsGet_cons, Ne.symm h]
  | cons p rest ih =>
    obtain ⟨k'', s⟩ := p
    by_cases hk : k'' = k
    · subst hk
      simp [logsModify, logsGet_cons, Ne.symm h]
    · simp [logsModify, hk, logsGet_cons, ih]

theorem tierEntries_modify_self (l : Logs) (k : KeyId)
    (f : List LogEntry → List LogEntry) :
    tierEntries (logsModify l k f) k = f (tierEntries l k) := by
  rw [tierEntries, logsGet_modify_self]
  rfl

theorem tierEntries_modify_other (l : Logs) (k k' : KeyId)
    (f : List LogEntry → List LogEntry) (h : k' ≠ k) :
    tierEntries (logsModify l k f) k' = tierEntries l k' := by
  rw [tierEntries, logsGet_modify_other l k k' f h, tierEntries]

theorem tierEntries_set_self (l : Logs) (k : KeyId) (v : List LogEntry) :
    tierEntries (logsSet l k v) k = v := by
  rw [tierEntries, logsGet_set_self]
  rfl

theorem tierEntries_set_other (l : Logs) (k k' : KeyId) (v : List LogEntry)
    (h : k' ≠ k) : tierEntries (logsSet l k v) k' = tierEntries l k' := by
  rw [tierEntries, logsGet_set_other l k k' v h, tierEntries]

theorem find?_sameId_cons (e : LogEntry) (es : List LogEntry) (rep : LogEntry) :
    (e :: es).find? (fun x => decide (x.sameId rep)) =
      if e.sameId rep then some e
      else es.find? (fun x => decide (x.sameId rep)) := by
  by_cases he : e.sameId rep
  · rw [if_pos he]
    exact List.find?_cons_of_pos _ (decide_eq_true he)
  · rw [if_neg he]
    exact List.find?_cons_of_neg _ (by simpa using he)

theorem find?_hsInsert (s : List LogEntry) (e rep : LogEntry) :
    (hsInsert s e).find? (fun x => decide (x.sameId rep)) =
      oElse (s.find? (fun x => decide (x.sameId rep)))
        (if e.sameId rep then some e else none) := by
  unfold hsInsert
  by_cases hany : s.any (fun x => decide (x.sameId e)) = true
  · rw [if_pos hany]
    cases hf : s.find? (fun x => decide (x.sameId rep)) with
    | some a => rfl
    | none =>
      by_cases he : e.sameId rep
      · exfalso
        obtain ⟨x, hx, hxe⟩ := List.any_eq_true.mp hany
        have hxrep : x.sameId rep := sameId_trans (of_decide_eq_true hxe) he
        exact (List.find?_eq_none.mp hf x hx) (decide_eq_true hxrep)
      · rw [if_neg he]
        rfl
  · rw [if_neg hany, List.find?_append]
    have hsingle : [e].find? (fun x => decide (x.sameId rep)) =
        if e.sameId rep then some e else none := by
      rw [find?_sameId_cons]
      rfl
    rw [hsingle]
    cases hf : s.find? (fun x => decide (x.sameId rep)) with
    | some a => rfl
    | none => rfl

theorem tierFind_foldl_insert (g : LogEntry → LogEntry)
    (hg : ∀ e rep, ((g e).sameId rep ↔ e.sameId rep)) (k : KeyId)
    (es : List LogEntry) :
    ∀ (l : Logs) (k' : KeyId) (rep : LogEntry),
      tierFind (es.foldl (fun a e => logsInsertEntry a k (g e)) l) k' rep =
        if k' = k then
          oElse (tierFind l k rep)
            ((es.find? (fun x => decide (x.sameId rep))).map g)
        else tierFind l k' rep := by
  induction es with
  | nil =>
    intro l k' rep
    by_cases h : k' = k
    · subst h
      simp
    · simp [h]
  | cons e es ih =>
    intro l k' rep
    have hstep : tierFind (logsInsertEntry l k (g e)) k rep =
        oElse (tierFind l k rep) (if e.sameId rep then some (g e) else none) := by
      unfold tierFind logsInsertEntry
      rw [tierEntries_modify_self, find?_hsInsert]
      by_cases he : e.sameId rep
      · rw [if_pos ((hg e rep).mpr he), if_pos he]
      · rw [if_neg (fun hh => he ((hg e rep).mp hh)), if_neg he]
    rw [List.foldl_cons, ih]
    by_cases h : k' = k
    · rw [if_pos h, if_pos h, hstep, find?_sameId_cons]
      by_cases he : e.sameId rep
      · rw [if_pos he, if_pos he]
        cases htf : tierFind l k rep <;> rfl
      · rw [if_neg he, if_neg he]
        cases htf : tierFind l k rep <;> rfl
    · have hother : tierFind (logsInsertEntry l k (g e)) k' rep = tierFind l k' rep := by
        unfold tierFind logsInsertEntry
        rw [tierEntries_modify_other _ _ _ _ h]
      rw [if_neg h, if_neg h, hother]

theorem payEntries_cons (p : KeyId × List LogEntry) (P : Logs) (k : KeyId) :
    payEntries (p :: P) k =
      if p.1 = k then p.2 ++ payEntries P k else payEntries P k := rfl

theorem oElse_map_or {α β : Type} (f : α → β) (X : Option β) (m n : Option α) :
    oElse (oElse X (m.map f)) (n.map f) = oElse X ((m.or n).map f) := by
  cases X <;> cases m <;> cases n <;> rfl

theorem tierFind_appendTier (src : NodeId) (P : Logs) :
    ∀ (tier : Logs) (k : KeyId) (rep : LogEntry),
      tierFind (LogStore.appendTier src tier P) k rep =
        oElse (tierFind tier k rep)
          (((payEntries P k).find? (fun x => decide (x.sameId rep))).map
            (stampWith src)) := by
  induction P with
  | nil =>
    intro tier k rep
    simp [LogStore.appendTier, payEntries]
  | cons p P ih =>
    intro tier k rep
    have hfold : LogStore.appendTier src tier (p :: P) =
        LogStore.appendTier src
          (p.2.foldl (fun a e => logsInsertEntry a p.1 (stampWith src e)) tier) P := by
      rw [LogStore.appendTier, List.foldl_cons, LogStore.appendTier]
    rw [hfold, ih, tierFind_foldl_insert (stampWith src) (stampWith_sameId src) p.1 p.2]
    by_cases h : k = p.1
    · rw [if_pos h, payEntries_cons, if_pos h.symm, List.find?_append, h,
        oElse_map_or]
    · rw [if_neg h, payEntries_cons, if_neg (Ne.symm h)]

theorem append_committed_committed (s : LogStore) (P : Logs) (k : KeyId)
    (rep : LogEntry) :
    tierFind (s.append_committed P).committed_logs k rep =
      oElse (tierFind s.committed_logs k rep)
        (((payEntries P k).find? (fun x => decide (x.sameId rep))).map
          (stampWith s.src)) :=
  tierFind_appendTier s.src P s.committed_logs k rep

theorem append_uncommitted_uncommitted (s : LogStore) (P : Logs) (k : KeyId)
    (rep : LogEntry) :
    tierFind (s.append_uncommitted P).uncommitted_logs k rep =
      oElse (tierFind s.uncommitted_logs k rep)
        (((payEntries P k).find? (fun x => decide (x.sameId rep))).map
          (stampWith s.src)) :=
  tierFind_appendTier s.src P s.uncommitted_logs k rep

theorem append_committed_frame (s : LogStore) (P : Logs) :
    (s.append_committed P).uncommitted_logs = s.uncommitted_logs ∧
      (s.append_committed P).src = s.src := ⟨rfl, rfl⟩

theorem append_uncommitted_frame (s : LogStore) (P : Logs) :
    (s.append_uncommitted P).committed_logs = s.committed_logs ∧
      (s.append_uncommitted P).src = s.src := ⟨rfl, rfl⟩

theorem payEntries_mem {P : Logs} {k : KeyId} {a : LogEntry}
    (h : a ∈ payEntries P k) : ∃ p, p ∈ P ∧ p.1 = k ∧ a ∈ p.2 := by
  induction P with
  | nil => simp [payEntries] at h
  | cons p P ih =>
    rw [payEntries_cons] at h
    by_cases hp : p.1 = k
    · rw [if_pos hp] at h
      rcases List.mem_append.mp h with h1 | h2
      · exact ⟨p, List.mem_cons_self p P, hp, h1⟩
      · obtain ⟨q, hq, hqk, hqa⟩ := ih h2
        exact ⟨q, List.mem_cons_of_mem _ hq, hqk, hqa⟩
    · rw [if_neg hp] at h
      obtain ⟨q, hq, hqk, hqa⟩ := ih h
      exact ⟨q, List.mem_cons_of_mem _ hq, hqk, hqa⟩

theorem payFind_disjoint {P Q : Logs} (hd : tierIdsDisjoint P Q) (k : KeyId)
    (rep a : LogEntry)
    (ha : (payEntries P k).find? (fun x => decide (x.sameId rep)) = some a) :
    (payEntries Q k).find? (fun x => decide (x.sameId rep)) = none := by
  apply List.find?_eq_none.mpr
  intro x hx hxdec
  have hxrep : x.sameId rep := of_decide_eq_true hxdec
  have ha1 : (fun x => decide (x.sameId rep)) a = true :=
    @List.find?_some LogEntry (fun x => decide (x.sameId rep)) a (payEntries P k) ha
  have harep : a.sameId rep := of_decide_eq_true ha1
  have hamem : a ∈ payEntries P k := List.mem_of_find?_eq_some ha
  obtain ⟨p, hp, hpk, ha2⟩ := payEntries_mem hamem
  have hxa : x.sameId a := sameId_trans hxrep (sameId_symm harep)
  exact hd p hp a ha2 x (by rw [hpk]; exact hx) hxa

theorem oElse_comm_of_none {X fA fB : Option LogEntry}
    (hdisj : fA = none ∨ fB = none) :
    oElse (oElse X fA) fB = oElse (oElse X fB) fA := by
  rcases hdisj with h | h
  · subst h
    cases X <;> cases fB <;> rfl
  · subst h
    cases X <;> cases fA <;> rfl

end BasicLemmas

section ClaimC2

/-- C2: the claim says merging deduplicates by `(key, offset)` across all
tiers with `seenBy` union. On the code, the incoming duplicate is simply
dropped: the stored entry for the same identity keeps `seen_by = ["n1"]` even
though the incoming copy carried `"n2"` and `"n3"`. -/
theorem c2_counterexample :
    tierFind (s_c2.append_committed p_c2).committed_logs "x" (⟨0, "x", 0, 0, []⟩ : LogEntry) =
      some (⟨0, "x", 0, 10, ["n1"]⟩ : LogEntry) ∧
    "n2" ∈ (⟨0, "x", 0, 10, ["n2", "n3"]⟩ : LogEntry).seen_by ∧
    "n2" ∉ (⟨0, "x", 0, 10, ["n1"]⟩ : LogEntry).seen_by := by
  decide

/-- C2 (amended): merging an incoming payload deduplicates by
`(key, offset, msg_id)` within the target tier only: when a matching entry
already exists there, lookup still returns that stored entry unchanged (the
incoming copy and its `seen_by` are discarded, nothing is unioned); otherwise
the first incoming entry with that identity is inserted, stamped with the
local node id. The other tier is never consulted or modified. -/
theorem c2_amended (s : LogStore) (P : Logs) (k : KeyId) (rep : LogEntry) :
    (tierFind (s.append_committed P).committed_logs k rep =
      oElse (tierFind s.committed_logs k rep)
        (((payEntries P k).find? (fun x => decide (x.sameId rep))).map
          (stampWith s.src))) ∧
    (s.append_committed P).uncommitted_logs = s.uncommitted_logs ∧
    (tierFind (s.append_uncommitted P).uncommitted_logs k rep =
      oElse (tierFind s.uncommitted_logs k rep)
        (((payEntries P k).find? (fun x => decide (x.sameId rep))).map
          (stampWith s.src))) ∧
    (s.append_uncommitted P).committed_logs = s.committed_logs :=
  ⟨append_committed_committed s P k rep, rfl,
   append_uncommitted_uncommitted s P k rep, rfl⟩

end ClaimC2

section ClaimC4

/-- C4: the claim says gossip merge is commutative. On the code it is not:
two payloads carrying the same `(key, offset, msg_id)` identity with different
`seen_by` sets produce different stores depending on merge order, because the
first-arrived copy wins and the second is dropped. -/
theorem c4_counterexample :
    tierFind ((s_c4.mergeGossip sA_c4).mergeGossip sB_c4).committed_logs "x" rep_c4 ≠
      tierFind ((s_c4.mergeGossip sB_c4).mergeGossip sA_c4).committed_logs "x" rep_c4 := by
  decide

/-- C4 (amended): gossip merge on the log store is commutative provided the
two payloads share no `(key, offset, msg_id)` identity (per tier): starting
from the same `LogStore`, merging A then B gives the same entries with the
same `seen_by` sets, per key and identity, in both tiers as merging B then A. -/
theorem c4_amended (s : LogStore) (A B : SeenLogs)
    (hc : tierIdsDisjoint A.committed B.committed)
    (hu : tierIdsDisjoint A.uncommitted B.uncommitted) (k : KeyId)
    (rep : LogEntry) :
    tierFind ((s.mergeGossip A).mergeGossip B).committed_logs k rep =
      tierFind ((s.mergeGossip B).mergeGossip A).committed_logs k rep ∧
    tierFind ((s.mergeGossip A).mergeGossip B).uncommitted_logs k rep =
      tierFind ((s.mergeGossip B).mergeGossip A).uncommitted_logs k rep := by
  have hAB_c : ((s.mergeGossip A).mergeGossip B).committed_logs =
      LogStore.appendTier s.src (LogStore.appendTier s.src s.committed_logs
        A.committed) B.committed := rfl
  have hBA_c : ((s.mergeGossip B).mergeGossip A).committed_logs =
      LogStore.appendTier s.src (LogStore.appendTier s.src s.committed_logs
        B.committed) A.committed := rfl
  have hAB_u : ((s.mergeGossip A).mergeGossip B).uncommitted_logs =
      LogStore.appendTier s.src (LogStore.appendTier s.src s.uncommitted_logs
        A.uncommitted) B.uncommitted := rfl
  have hBA_u : ((s.mergeGossip B).mergeGossip A).uncommitted_logs =
      LogStore.appendTier s.src (LogStore.appendTier s.src s.uncommitted_logs
        B.uncommitted) A.uncommitted := rfl
  constructor
  · rw [hAB_c, hBA_c, tierFind_appendTier, tierFind_appendTier,
      tierFind_appendTier, tierFind_appendTier]
    apply oElse_comm_of_none
    cases hfa : (payEntries A.committed k).find? (fun x => decide (x.sameId rep)) with
    | some a => right; rw [payFind_disjoint hc k rep a hfa]; rfl
    | none => left; rfl
  · rw [hAB_u, hBA_u, tierFind_appendTier, tierFind_appendTier,
      tierFind_appendTier, tierFind_appendTier]
    apply oElse_comm_of_none
    cases hfa : (payEntries A.uncommitted k).find? (fun x => decide (x.sameId rep)) with
    | some a => right; rw [payFind_disjoint hu k rep a hfa]; rfl
    | none => left; rfl

/-- C4 witness: the amended commutativity applied to concrete
identity-disjoint payloads. -/
theorem c4_witness :
    tierIdsDisjoint sA2_c4.committed sB2_c4.committed ∧
    tierIdsDisjoint sA2_c4.uncommitted sB2_c4.uncommitted ∧
    tierFind ((s_c4.mergeGossip sA2_c4).mergeGossip sB2_c4).committed_logs "x" rep_c4 =
      tierFind ((s_c4.mergeGossip sB2_c4).mergeGossip sA2_c4).committed_logs "x" rep_c4 :=
  ⟨by decide, by decide,
   (c4_amended s_c4 sA2_c4 sB2_c4 (by decide) (by decide) "x" rep_c4).1⟩

end ClaimC4

section ClaimC5

/-- C5: the claim says a lower later commit is a no-op. On the code,
after `commit(x,5)`, an entry at offset 2 arrives uncommitted, and
`commit(x,3)` does move it to the committed tier — `LogStore::commit` has no
watermark and no monotonicity check. -/
theorem c5_counterexample :
    fin_c5 ≠ mid_c5 ∧
    tierFind mid_c5.uncommitted_logs "x" (⟨7, "x", 2, 0, []⟩ : LogEntry) =
      some ⟨7, "x", 2, 20, ["n2", "n1"]⟩ ∧
    tierFind fin_c5.committed_logs "x" (⟨7, "x", 2, 0, []⟩ : LogEntry) =
      some ⟨7, "x", 2, 20, ["n2", "n1"]⟩ := by
  decide

/-- C5 (amended): `commit` for a single key is unconditional: with no
uncommitted set (or an empty one) for the key it is a no-op; otherwise every
uncommitted entry with `offset <= o` is moved into the committed tier
(extending it, so earlier-committed entries are never demoted), every entry
with `offset > o` stays uncommitted, and other keys are untouched. No
committed-offset watermark exists, so a later lower commit still moves
entries that are uncommitted at that time. -/
theorem c5_amended (s : LogStore) (k : KeyId) (o : Offset) :
    (logsGet s.uncommitted_logs k = none → s.commit [(k, o)] = s) ∧
    (∀ entries, logsGet s.uncommitted_logs k = some entries →
      (entries = [] → s.commit [(k, o)] = s) ∧
      (entries ≠ [] →
        logsGet (s.commit [(k, o)]).uncommitted_logs k =
          some (entries.filter (fun l => decide (o < l.offset))) ∧
        tierEntries (s.commit [(k, o)]).committed_logs k =
          hsExtend (tierEntries s.committed_logs k)
            (entries.filter (fun l => decide (l.offset ≤ o))) ∧
        (∀ k', k' ≠ k →
          logsGet (s.commit [(k, o)]).uncommitted_logs k' =
            logsGet s.uncommitted_logs k' ∧
          logsGet (s.commit [(k, o)]).committed_logs k' =
            logsGet s.committed_logs k'))) := by
  constructor
  · intro h
    simp only [LogStore.commit, List.foldl_cons, List.foldl_nil, h]
  · intro entries h
    constructor
    · intro he
      subst he
      simp only [LogStore.commit, List.foldl_cons, List.foldl_nil, h,
        List.isEmpty_nil, if_true]
    · intro hne
      have hie : entries.isEmpty = false := by
        cases entries with
        | nil => exact absurd rfl hne
        | cons a l => rfl
      have hmain : s.commit [(k, o)] =
          { s with
            uncommitted_logs := logsSet s.uncommitted_logs k
              (entries.filter (fun l => decide (o < l.offset))),
            committed_logs := logsModify s.committed_logs k
              (fun cs => hsExtend cs
                (entries.filter (fun l => decide (l.offset ≤ o)))) } := by
        simp only [LogStore.commit, List.foldl_cons, List.foldl_nil, h, hie,
          Bool.false_eq_true, if_false]
      rw [hmain]
      refine ⟨logsGet_set_self _ _ _, tierEntries_modify_self _ _ _, ?_⟩
      intro k' hk
      exact ⟨logsGet_set_other _ _ _ _ hk, logsGet_modify_other _ _ _ _ hk⟩

/-- C5 witness: the amended commit behavior evaluated on the concrete
scenario after `commit(x,5)` and the late offset-2 arrival. -/
theorem c5_witness :
    logsGet (mid_c5.commit [("x", 3)]).uncommitted_logs "x" =
      some ([⟨7, "x", 2, 20, ["n2", "n1"]⟩].filter
        (fun l => decide ((3 : Offset) < l.offset))) ∧
    tierEntries (mid_c5.commit [("x", 3)]).committed_logs "x" =
      hsExtend (tierEntries mid_c5.committed_logs "x")
        ([⟨7, "x", 2, 20, ["n2", "n1"]⟩].filter
          (fun l => decide (l.offset ≤ (3 : Offset)))) := by
  have h := ((c5_amended mid_c5 "x" 3).2 [⟨7, "x", 2, 20, ["n2", "n1"]⟩]
    (by decide)).2 (by decide)
  exact ⟨h.1, h.2.1⟩

end ClaimC5

section ClaimC7

/-- C7: the claim says `list_committed_offsets` counts the Committed tier. On
the code the reply is computed from the anchored-committed store only: with
one entry in the live committed tier and an empty anchored store, the reply
omits the key entirely. -/
theorem c7_counterexample :
    handle_list_committed_offsets st_c7 ["x"] = [] ∧
    tierEntries st_c7.log_store.committed_logs "x" = [⟨0, "x", 0, 10, ["n1"]⟩] := by
  decide

/-- C7 (amended): `list_committed_offsets` returns, per requested key, the
size of that key's entry set in the anchored-committed store, skipping keys
absent from that store; the live committed tier is not consulted. -/
theorem c7_amended (st : NodeState) (k : KeyId) :
    handle_list_committed_offsets st [k] =
      match logsGet st.anchored_committed_logs k with
      | none => []
      | some entries => [(k, entries.length)] := by
  cases h : logsGet st.anchored_committed_logs k with
  | none => simp [handle_list_committed_offsets, h]
  | some entries => simp [handle_list_committed_offsets, h, kvSet]

end ClaimC7

section ClaimC10

/-- C10: before init (sentinel node id), a gossip trigger and an anchor
trigger are complete no-ops (state returned unchanged, no message emitted);
with an empty neighbor set the gossip trigger is likewise a no-op. -/
theorem c10_confirmed (st : NodeState) :
    (st.node_id = "uninit" →
      handle_trigger_gossip st = some (st, []) ∧ handle_anchor st = st) ∧
    (st.neighbors = [] → handle_trigger_gossip st = some (st, [])) := by
  constructor
  · intro h
    constructor
    · unfold handle_trigger_gossip
      rw [if_pos (Or.inr h)]
    · unfold handle_anchor
      rw [if_pos h]
  · intro h
    unfold handle_trigger_gossip
    rw [if_pos (Or.inl (by rw [h]; rfl))]

/-- C10 witness: the fresh node state. -/
theorem c10_witness :
    newNode.node_id = "uninit" ∧
    handle_trigger_gossip newNode = some (newNode, []) ∧
    handle_anchor newNode = newNode :=
  ⟨rfl, ((c10_confirmed newNode).1 rfl).1, ((c10_confirmed newNode).1 rfl).2⟩

end ClaimC10

section ClaimC9

theorem kvGet_foldl_set_of_not_mem {α β : Type} [DecidableEq α]
    (v : β) (list : List α) :
    ∀ (m : List (α × β)) (n : α), n ∉ list →
      kvGet (list.foldl (fun acc i => kvSet acc i v) m) n = kvGet m n := by
  induction list with
  | nil => intro m n _; rfl
  | cons i rest ih =>
    intro m n h
    rw [List.foldl_cons, ih (kvSet m i v) n (fun hr => h (List.mem_cons_of_mem i hr)),
      kvGet_set_other]
    exact fun he => h (he ▸ List.mem_cons_self i rest)

theorem kvGet_foldl_set_mem {α β : Type} [DecidableEq α] (v : β)
    (list : List α) :
    ∀ (m : List (α × β)) (n : α), n ∈ list →
      kvGet (list.foldl (fun acc i => kvSet acc i v) m) n = some v := by
  induction list with
  | nil => intro m n h; exact absurd h (List.not_mem_nil n)
  | cons i rest ih =>
    intro m n h
    rw [List.foldl_cons]
    by_cases hr : n ∈ rest
    · exact ih (kvSet m i v) n hr
    · have hn : n = i := by
        rcases List.mem_cons.mp h with h1 | h2
        · exact h1
        · exact absurd h2 hr
      rw [kvGet_foldl_set_of_not_mem v rest (kvSet m i v) n hr, hn,
        kvGet_set_self]

/-- C9: a gossip message whose source is absent from the peer-knowledge map
hits `expect("Unknown node")` (modelled by `none`), and for every source that
is a neighbor established by `handle_init`, the assertion can never fire. -/
theorem c9_confirmed :
    (∀ (st : NodeState) (src : NodeId) (seen : SeenLogs),
      handle_gossip st src seen = none ↔ kvGet st.known src = none) ∧
    (∀ (st0 : NodeState) (nid : NodeId) (nids : List NodeId) (src : NodeId)
      (seen : SeenLogs), src ∈ (handle_init st0 nid nids).neighbors →
      (handle_gossip (handle_init st0 nid nids) src seen).isSome = true) := by
  constructor
  · intro st src seen
    cases h : kvGet st.known src with
    | none => simp [handle_gossip, h]
    | some node => simp [handle_gossip, h]
  · intro st0 nid nids src seen hsrc
    have hget : kvGet (handle_init st0 nid nids).known src = some ⟨[], []⟩ :=
      kvGet_foldl_set_mem (⟨[], []⟩ : SeenLogs)
        ((nids.filter (fun n => decide (n ≠ nid))).dedup) st0.known src hsrc
    simp [handle_gossip, hget]

/-- C9 witness: after a concrete init, gossip from the neighbor n2 does not
hit the assertion. -/
theorem c9_witness :
    "n2" ∈ (handle_init newNode "n1" ["n1", "n2"]).neighbors ∧
    (handle_gossip (handle_init newNode "n1" ["n1", "n2"]) "n2" ⟨[], []⟩).isSome
      = true :=
  ⟨by decide, c9_confirmed.2 newNode "n1" ["n1", "n2"] "n2" ⟨[], []⟩ (by decide)⟩

end ClaimC9

section ClaimC3

theorem mem_hsInsert {a e : LogEntry} {s : List LogEntry}
    (h : a ∈ hsInsert s e) : a ∈ s ∨ a = e := by
  unfold hsInsert at h
  by_cases hany : s.any (fun x => decide (x.sameId e)) = true
  · rw [if_pos hany] at h
    exact Or.inl h
  · rw [if_neg hany] at h
    rcases List.mem_append.mp h with h1 | h2
    · exact Or.inl h1
    · exact Or.inr (List.mem_singleton.mp h2)

theorem mem_hsExtend {a : LogEntry} {new : List LogEntry} :
    ∀ {s : List LogEntry}, a ∈ hsExtend s new → a ∈ s ∨ a ∈ new := by
  induction new with
  | nil => intro s h; exact Or.inl h
  | cons e new ih =>
    intro s h
    have h2 : a ∈ hsExtend (hsInsert s e) new := h
    rcases ih h2 with h3 | h3
    · rcases mem_hsInsert h3 with h4 | h4
      · exact Or.inl h4
      · exact Or.inr (h4 ▸ List.mem_cons_self e new)
    · exact Or.inr (List.mem_cons_of_mem e h3)

theorem anchorTier_anchored_mem (cluster : List NodeId) :
    ∀ (tier anchored : Logs) (k : KeyId) (e : LogEntry),
      e ∈ tierEntries (anchorTier cluster tier anchored).2 k →
      e ∈ tierEntries anchored k ∨ strSetEq e.seen_by cluster := by
  intro tier
  induction tier with
  | nil => intro anchored k e h; exact Or.inl h
  | cons p rest ih =>
    intro anchored k e h
    have h2 : e ∈ tierEntries (anchorTier cluster rest
        (logsModify anchored p.1 (fun s => hsExtend s
          (p.2.filter (fun x => decide (strSetEq x.seen_by cluster)))))).2 k := h
    rcases ih _ k e h2 with hmem | hset
    · by_cases hk : k = p.1
      · rw [hk, tierEntries_modify_self] at hmem
        rcases mem_hsExtend hmem with h3 | h3
        · exact Or.inl (hk ▸ h3)
        · exact Or.inr (of_decide_eq_true (List.mem_filter.mp h3).2)
      · rw [tierEntries_modify_other _ _ _ _ hk] at hmem
        exact Or.inl hmem
    · exact Or.inr hset

/-- C3: the claim also says an anchored entry is never re-inserted into a live
tier. On the code, gossip from n2 carrying the already-anchored identity
re-inserts a copy into the committed tier (with its own smaller seen-by set),
while the anchored copy stays in the anchored store. -/
theorem c3_counterexample :
    tierFind st_c3.anchored_committed_logs "x" rep_c3 = some anch_c3 ∧
    (handle_gossip st_c3 "n2" seen_c3).map
      (fun r => tierFind r.log_store.committed_logs "x" rep_c3) =
      some (some ⟨0, "x", 0, 10, ["n2", "n1"]⟩) := by
  decide

/-- C3 (amended): anchoring safety holds in one direction — every entry found
in an anchored store after `anchor_messages` was either already anchored or
has `seen_by` equal to the full cluster set. (Re-insertion of anchored
entries into live tiers by later gossip is possible; see the counterexample.) -/
theorem c3_amended (st : NodeState) (k : KeyId) (e : LogEntry) :
    (e ∈ tierEntries (anchor_messages st).anchored_uncommitted_logs k →
      e ∈ tierEntries st.anchored_uncommitted_logs k ∨
        strSetEq e.seen_by st.cluster) ∧
    (e ∈ tierEntries (anchor_messages st).anchored_committed_logs k →
      e ∈ tierEntries st.anchored_committed_logs k ∨
        strSetEq e.seen_by st.cluster) := by
  constructor
  · intro h
    exact anchorTier_anchored_mem st.cluster st.log_store.uncommitted_logs
      st.anchored_uncommitted_logs k e h
  · intro h
    exact anchorTier_anchored_mem st.cluster st.log_store.committed_logs
      st.anchored_committed_logs k e h

/-- C3 witness: a committed entry whose seen-by set equals the cluster is
anchored by `anchor_messages`, and the theorem's disjunction holds for it. -/
theorem c3_witness :
    (⟨0, "x", 0, 10, ["n2", "n1"]⟩ : LogEntry) ∈
      tierEntries (anchor_messages stw_c3).anchored_committed_logs "x" ∧
    ((⟨0, "x", 0, 10, ["n2", "n1"]⟩ : LogEntry) ∈
        tierEntries stw_c3.anchored_committed_logs "x" ∨
      strSetEq (⟨0, "x", 0, 10, ["n2", "n1"]⟩ : LogEntry).seen_by stw_c3.cluster) :=
  ⟨by decide, (c3_amended stw_c3 "x" ⟨0, "x", 0, 10, ["n2", "n1"]⟩).2 (by decide)⟩

end ClaimC3

section ClaimC8

/-- C8: in the fresh 3-node cluster, the first send for "x" does not return
offset 0, and the immediate poll on the same node does not return the
message: the reply maps "x" to the empty list. -/
theorem c8_counterexample :
    send_c8.2.2 ≠ 0 ∧
    (0, 10) ∉ (kvGet (poll_reply send_c8.1 [("x", 0)]) "x").getD [] := by
  decide

/-- C8 (amended): the external counter (Redis INCR) returns the
post-increment value, so the first send for a key returns `send_ok` with
offset 1, and the freshly appended entry sits in the live uncommitted tier —
which `handle_poll` never reads, so an immediate poll with `{x: 0}` on the
same node returns an empty list for "x". -/
theorem c8_amended :
    send_c8.2.2 = 1 ∧
    poll_reply send_c8.1 [("x", 0)] = [("x", [])] ∧
    tierFind send_c8.1.log_store.uncommitted_logs "x" (⟨1, "x", 1, 0, []⟩ : LogEntry) =
      some ⟨1, "x", 1, 10, ["n1"]⟩ := by
  decide

end ClaimC8

section ClaimC6

theorem logsContainsKey_insert_self (a : Logs) (k : KeyId) (e : LogEntry) :
    logsContainsKey (logsInsertEntry a k e) k = true := by
  unfold logsContainsKey logsInsertEntry
  rw [logsGet_modify_self]
  rfl

theorem logsContainsKey_cons (p : KeyId × List LogEntry) (rest : Logs)
    (k : KeyId) :
    logsContainsKey (p :: rest) k =
      if p.1 = k then true else logsContainsKey rest k := by
  unfold logsContainsKey
  rw [logsGet_cons]
  by_cases h : p.1 = k <;> simp [h]

theorem logsInsertEntry_length_of_contains (a : Logs) (k : KeyId) (e : LogEntry)
    (h : logsContainsKey a k = true) :
    (logsInsertEntry a k e).length = a.length := by
  induction a with
  | nil => simp [logsContainsKey, logsGet] at h
  | cons p rest ih =>
    obtain ⟨k', s⟩ := p
    by_cases hp : k' = k
    · simp [logsInsertEntry, logsModify, hp]
    · rw [logsContainsKey_cons, if_neg hp] at h
      have h2 := ih h
      simp only [logsInsertEntry, logsModify, if_neg hp, List.length_cons]
      simp only [logsInsertEntry] at h2
      omega

theorem logsInsertEntry_length_of_not (a : Logs) (k : KeyId) (e : LogEntry)
    (h : logsContainsKey a k = false) :
    (logsInsertEntry a k e).length = a.length + 1 := by
  induction a with
  | nil => rfl
  | cons p rest ih =>
    obtain ⟨k', s⟩ := p
    by_cases hp : k' = k
    · rw [logsContainsKey_cons, if_pos hp] at h
      exact absurd h (by simp)
    · rw [logsContainsKey_cons, if_neg hp] at h
      have h2 := ih h
      simp only [logsInsertEntry, logsModify, if_neg hp, List.length_cons]
      simp only [logsInsertEntry] at h2
      omega

theorem logsInsertEntry_length_le (a : Logs) (k : KeyId) (e : LogEntry) :
    (logsInsertEntry a k e).length ≤ a.length + 1 := by
  cases h : logsContainsKey a k
  · rw [logsInsertEntry_length_of_not a k e h]
  · rw [logsInsertEntry_length_of_contains a k e h]
    omega

theorem collectEntries_false (batch : Nat) (key : KeyId) :
    ∀ (es : List LogEntry) (acc : Logs), acc.length < batch →
      collectEntries (some false) batch key es acc = some acc := by
  intro es
  induction es with
  | nil => intro acc _; rfl
  | cons e es ih =>
    intro acc hlen
    have hne : ¬ acc.length = batch := Nat.ne_of_lt hlen
    simp only [collectEntries, Bool.false_eq_true, if_false]
    rw [if_neg hne]
    exact ih acc hlen

theorem collectEntries_true (batch : Nat) (key : KeyId) :
    ∀ (es : List LogEntry) (acc : Logs), logsContainsKey acc key = true →
      acc.length < batch →
      collectEntries (some true) batch key es acc =
        some (es.foldl (fun a e => logsInsertEntry a key e) acc) ∧
      (es.foldl (fun a e => logsInsertEntry a key e) acc).length = acc.length := by
  intro es
  induction es with
  | nil => intro acc _ _; exact ⟨rfl, rfl⟩
  | cons e es ih =>
    intro acc hpres hlen
    have hacc2len : (logsInsertEntry acc key e).length = acc.length :=
      logsInsertEntry_length_of_contains acc key e hpres
    have hlt : (logsInsertEntry acc key e).length < batch := by
      rw [hacc2len]; exact hlen
    have hstep : collectEntries (some true) batch key (e :: es) acc =
        collectEntries (some true) batch key es (logsInsertEntry acc key e) := by
      simp only [collectEntries, if_true]
      rw [if_neg (Nat.ne_of_lt hlt)]
    have hrec := ih (logsInsertEntry acc key e)
      (logsContainsKey_insert_self acc key e) hlt
    rw [hstep, List.foldl_cons]
    exact ⟨hrec.1, by rw [hrec.2, hacc2len]⟩

theorem collectEntries_no_cap (c : Bool) (batch : Nat) (key : KeyId)
    (es : List LogEntry) (acc : Logs) (hlen : acc.length + 1 < batch) :
    collectEntries (some c) batch key es acc = some (pureEntries c key es acc) ∧
    (pureEntries c key es acc).length ≤ acc.length + 1 := by
  cases c with
  | false =>
    have hpe : pureEntries false key es acc = acc := by simp [pureEntries]
    rw [hpe]
    exact ⟨collectEntries_false batch key es acc (by omega), by omega⟩
  | true =>
    have hpe : pureEntries true key es acc =
        es.foldl (fun a e => logsInsertEntry a key e) acc := by
      simp [pureEntries]
    rw [hpe]
    cases es with
    | nil => exact ⟨rfl, by simp⟩
    | cons e es =>
      have hacc2le := logsInsertEntry_length_le acc key e
      have hlt : (logsInsertEntry acc key e).length < batch := by omega
      have hstep : collectEntries (some true) batch key (e :: es) acc =
          collectEntries (some true) batch key es (logsInsertEntry acc key e) := by
        simp only [collectEntries, if_true]
        rw [if_neg (Nat.ne_of_lt hlt)]
      have hrec := collectEntries_true batch key es (logsInsertEntry acc key e)
        (logsContainsKey_insert_self acc key e) hlt
      rw [hstep, List.foldl_cons]
      exact ⟨hrec.1, by rw [hrec.2]; exact hacc2le⟩

theorem collectTier_no_cap (condFor : KeyId → Option Bool) (condB : KeyId → Bool)
    (batch : Nat) :
    ∀ (tier acc : Logs),
      (∀ p ∈ tier, condFor p.1 = some (condB p.1)) →
      acc.length + tier.length < batch →
      collectTier condFor batch tier acc = some (collectPure condB tier acc) ∧
      (collectPure condB tier acc).length ≤ acc.length + tier.length := by
  intro tier
  induction tier with
  | nil => intro acc _ _; exact ⟨rfl, by simp [collectPure]⟩
  | cons p rest ih =>
    intro acc hc hlen
    rw [List.length_cons] at hlen
    have hcp := hc p (List.mem_cons_self p rest)
    have hE := collectEntries_no_cap (condB p.1) batch p.1 p.2 acc (by omega)
    have hne : ¬ (pureEntries (condB p.1) p.1 p.2 acc).length = batch := by
      have := hE.2
      omega
    have hstep : collectTier condFor batch (p :: rest) acc =
        collectTier condFor batch rest (pureEntries (condB p.1) p.1 p.2 acc) := by
      simp only [collectTier]
      rw [hcp, hE.1]
      simp only [if_neg hne]
    have hlen2 : (pureEntries (condB p.1) p.1 p.2 acc).length + rest.length
        < batch := by
      have := hE.2
      omega
    have hrec := ih (pureEntries (condB p.1) p.1 p.2 acc)
      (fun q hq => hc q (List.mem_cons_of_mem p hq)) hlen2
    have hpure : collectPure condB (p :: rest) acc =
        collectPure condB rest (pureEntries (condB p.1) p.1 p.2 acc) := rfl
    constructor
    · rw [hstep, hrec.1, hpure]
    · rw [hpure]
      have := hrec.2
      have := hE.2
      rw [List.length_cons]
      omega

theorem logsGet_eq_none_of_not_keys (l : Logs) (k : KeyId)
    (h : k ∉ l.map (fun p => p.1)) : logsGet l k = none := by
  induction l with
  | nil => rfl
  | cons p rest ih =>
    rw [List.map_cons] at h
    have hne : p.1 ≠ k := fun he => h (by rw [← he]; exact List.mem_cons_self _ _)
    rw [logsGet_cons, if_neg hne, ih (fun hr => h (List.mem_cons_of_mem p.1 hr))]

theorem tierFind_eq_none_of_not_keys (l : Logs) (k : KeyId) (rep : LogEntry)
    (h : k ∉ l.map (fun p => p.1)) : tierFind l k rep = none := by
  unfold tierFind tierEntries
  rw [logsGet_eq_none_of_not_keys l k h]
  rfl

theorem tierFind_nil (k : KeyId) (rep : LogEntry) :
    tierFind ([] : Logs) k rep = none := rfl

theorem tierFind_cons (p : KeyId × List LogEntry) (rest : Logs) (k : KeyId)
    (rep : LogEntry) :
    tierFind (p :: rest) k rep =
      if p.1 = k then p.2.find? (fun x => decide (x.sameId rep))
      else tierFind rest k rep := by
  unfold tierFind tierEntries
  rw [logsGet_cons]
  by_cases h : p.1 = k <;> simp [h]

theorem option_map_id (o : Option LogEntry) :
    (o.map (fun e => e)) = o := by
  cases o <;> rfl

theorem tierFind_collectPure (condB : KeyId → Bool) :
    ∀ (tier acc : Logs), keysNodup tier →
      ∀ (k : KeyId) (rep : LogEntry),
        tierFind (collectPure condB tier acc) k rep =
          oElse (tierFind acc k rep)
            (if condB k then tierFind tier k rep else none) := by
  intro tier
  induction tier with
  | nil =>
    intro acc _ k rep
    have : collectPure condB [] acc = acc := rfl
    rw [this, tierFind_nil, ite_self, oElse_none_right]
  | cons p rest ih =>
    intro acc hnd k rep
    have hnd' : (p.1 :: rest.map (fun q => q.1)).Nodup := by
      unfold keysNodup at hnd
      rw [List.map_cons] at hnd
      exact hnd
    have hnd2 := List.nodup_cons.mp hnd'
    have hstep : collectPure condB (p :: rest) acc =
        collectPure condB rest (pureEntries (condB p.1) p.1 p.2 acc) := rfl
    rw [hstep, ih _ hnd2.2 k rep]
    cases hc : condB p.1 with
    | false =>
      have hpe : pureEntries false p.1 p.2 acc = acc := by simp [pureEntries]
      rw [hpe]
      by_cases hk : k = p.1
      · have hck : condB k = false := by rw [hk]; exact hc
        simp [hck]
      · rw [tierFind_cons, if_neg (show ¬ p.1 = k from fun hh => hk hh.symm)]
    | true =>
      have hpe : pureEntries true p.1 p.2 acc =
          p.2.foldl (fun a e => logsInsertEntry a p.1 e) acc := by
        simp [pureEntries]
      rw [hpe,
        tierFind_foldl_insert (fun e => e) (fun e r => Iff.rfl) p.1 p.2 acc k rep]
      by_cases hk : k = p.1
      · have hck : condB k = true := by rw [hk]; exact hc
        have hrest : tierFind rest k rep = none := by
          apply tierFind_eq_none_of_not_keys
          rw [hk]
          exact hnd2.1
        rw [if_pos hk, option_map_id, tierFind_cons, if_pos hk.symm]
        simp only [hck, if_true, hrest, oElse_none_right]
        rw [hk]
      · rw [if_neg hk, tierFind_cons,
          if_neg (show ¬ p.1 = k from fun hh => hk hh.symm)]

theorem bnot_eq_true (b : Bool) : (!b) = true ↔ b = false := by
  cases b <;> simp

theorem condUncommitted_of_unknown_key (known : List (NodeId × SeenLogs))
    (n : NodeId) (key : KeyId) (h : kvGet known key = none) :
    condUncommitted known n key = some true := by
  unfold condUncommitted
  rw [h]
  rfl

theorem computeDelta_spec (st : NodeState) (n : NodeId)
    (hkeysC : keysNodup st.log_store.committed_logs)
    (hkeysU : keysNodup st.log_store.uncommitted_logs)
    (hcapC : st.log_store.committed_logs.length < st.gossip_batch_size)
    (hcapU : st.log_store.uncommitted_logs.length < st.gossip_batch_size)
    (hker : ∀ p ∈ st.log_store.uncommitted_logs, kvGet st.known p.1 = none) :
    computeDelta st n =
      some ⟨collectPure (fun _ => true) st.log_store.uncommitted_logs [],
            collectPure (condCommitted st.known n) st.log_store.committed_logs []⟩ ∧
    (∀ k rep,
      tierFind (collectPure (condCommitted st.known n)
          st.log_store.committed_logs []) k rep =
        if condCommitted st.known n k then
          tierFind st.log_store.committed_logs k rep
        else none) ∧
    (∀ k rep,
      tierFind (collectPure (fun _ => true)
          st.log_store.uncommitted_logs []) k rep =
        tierFind st.log_store.uncommitted_logs k rep) := by
  have hC := collectTier_no_cap (fun k => some (condCommitted st.known n k))
    (condCommitted st.known n) st.gossip_batch_size st.log_store.committed_logs
    [] (fun p _ => rfl) (by simpa using hcapC)
  have hU := collectTier_no_cap (fun k => condUncommitted st.known n k)
    (fun _ => true) st.gossip_batch_size st.log_store.uncommitted_logs []
    (fun p hp => condUncommitted_of_unknown_key st.known n p.1 (hker p hp))
    (by simpa using hcapU)
  refine ⟨?_, ?_, ?_⟩
  · unfold computeDelta
    rw [hC.1, hU.1]
  · intro k rep
    rw [tierFind_collectPure (condCommitted st.known n)
      st.log_store.committed_logs [] hkeysC k rep]
    rfl
  · intro k rep
    rw [tierFind_collectPure (fun _ => true)
      st.log_store.uncommitted_logs [] hkeysU k rep]
    rfl

theorem mapOpt_mem {α β : Type} (f : α → Option β) :
    ∀ (xs : List α) (ys : List β), mapOpt f xs = some ys →
      (∀ y ∈ ys, ∃ x, x ∈ xs ∧ f x = some y) ∧
      (∀ x ∈ xs, ∃ y, y ∈ ys ∧ f x = some y) := by
  intro xs
  induction xs with
  | nil =>
    intro ys h
    have hys : ys = [] := by
      unfold mapOpt at h
      injection h with h2
      exact h2.symm
    subst hys
    constructor <;> intro z hz <;> exact absurd hz (List.not_mem_nil z)
  | cons x xs ih =>
    intro ys h
    unfold mapOpt at h
    cases hfx : f x with
    | none => rw [hfx] at h; exact absurd h (by simp)
    | some y =>
      rw [hfx] at h
      cases hm : mapOpt f xs with
      | none => rw [hm] at h; exact absurd h (by simp)
      | some ys2 =>
        rw [hm] at h
        have hys : ys = y :: ys2 := by injection h with h2; exact h2.symm
        subst hys
        have hih := ih ys2 hm
        constructor
        · intro z hz
          rcases List.mem_cons.mp hz with h1 | h1
          · exact ⟨x, List.mem_cons_self x xs, by rw [hfx, h1]⟩
          · obtain ⟨x2, hx2, hfx2⟩ := hih.1 z h1
            exact ⟨x2, List.mem_cons_of_mem x hx2, hfx2⟩
        · intro x2 hx2
          rcases List.mem_cons.mp hx2 with h1 | h1
          · exact ⟨y, List.mem_cons_self y ys2, by rw [h1, hfx]⟩
          · obtain ⟨y2, hy2, hfy2⟩ := hih.2 x2 h1
            exact ⟨y2, List.mem_cons_of_mem y hy2, hfy2⟩

theorem trigger_shape (st st2 : NodeState) (msgs : List (NodeId × SeenLogs))
    (hne : ¬ (st.neighbors.isEmpty ∨ st.node_id = "uninit"))
    (h : handle_trigger_gossip st = some (st2, msgs)) :
    ∃ deltas, gossipDeltas st = some deltas ∧ msgs = gossipMsgsOf deltas := by
  unfold handle_trigger_gossip at h
  rw [if_neg hne] at h
  cases hd : gossipDeltas st with
  | none => rw [hd] at h; exact absurd h (by simp)
  | some deltas =>
    rw [hd, Option.some_bind] at h
    refine ⟨deltas, rfl, ?_⟩
    cases hk : updateKnownAll (gossipMsgsOf deltas) st.known with
    | none => rw [hk] at h; exact absurd h (by simp)
    | some known2 =>
      rw [hk, Option.some_bind] at h
      cases hs : stampAll (gossipMsgsOf deltas) st.log_store with
      | none => rw [hs] at h; exact absurd h (by simp)
      | some store2 =>
        rw [hs, Option.map_some'] at h
        injection h with h2
        exact (congrArg Prod.snd h2).symm

/-- C6 (amended): on a post-init gossip trigger (known neighbors, caps not
reached, log keys distinct and not colliding with node ids), each message sent
carries, per key: the whole committed entry set of the key when the neighbor's
known-committed record lacks that key (and nothing of that key otherwise) —
per-key granularity, not per-entry — and the entire uncommitted tier
regardless of what the neighbor is known to have (the source checks the log
key, not the neighbor, against the peer map). Exactly the neighbors with a
non-empty such delta are messaged. -/
theorem c6_amended (st st2 : NodeState) (msgs : List (NodeId × SeenLogs))
    (h : handle_trigger_gossip st = some (st2, msgs))
    (hnb : st.neighbors ≠ []) (hid : st.node_id ≠ "uninit")
    (hkeysC : keysNodup st.log_store.committed_logs)
    (hkeysU : keysNodup st.log_store.uncommitted_logs)
    (hcapC : st.log_store.committed_logs.length < st.gossip_batch_size)
    (hcapU : st.log_store.uncommitted_logs.length < st.gossip_batch_size)
    (hker : ∀ p ∈ st.log_store.uncommitted_logs, kvGet st.known p.1 = none) :
    (∀ n d, (n, d) ∈ msgs →
      n ∈ st.neighbors ∧
      (d.uncommitted.isEmpty && d.committed.isEmpty) = false ∧
      (∀ k rep, tierFind d.committed k rep =
        if condCommitted st.known n k then
          tierFind st.log_store.committed_logs k rep
        else none) ∧
      (∀ k rep, tierFind d.uncommitted k rep =
        tierFind st.log_store.uncommitted_logs k rep)) ∧
    (∀ n ∈ st.neighbors, ∀ d, computeDelta st n = some d →
      (d.uncommitted.isEmpty && d.committed.isEmpty) = false →
      (n, d) ∈ msgs) := by
  have hguard : ¬ (st.neighbors.isEmpty ∨ st.node_id = "uninit") := by
    intro hor
    rcases hor with h1 | h1
    · refine hnb ?_
      cases hl : st.neighbors with
      | nil => rfl
      | cons a l => rw [hl] at h1; simp [List.isEmpty] at h1
    · exact hid h1
  obtain ⟨deltas, hdelt, hmsgs⟩ := trigger_shape st st2 msgs hguard h
  have hmm := mapOpt_mem (fun n => (computeDelta st n).map (fun d => (n, d)))
    st.neighbors deltas hdelt
  constructor
  · intro n d hmem
    rw [hmsgs] at hmem
    unfold gossipMsgsOf at hmem
    have hmem2 := List.mem_filter.mp hmem
    obtain ⟨x, hx, hfx0⟩ := hmm.1 (n, d) hmem2.1
    have hfx : (computeDelta st x).map (fun d => (x, d)) = some (n, d) := hfx0
    cases hcd : computeDelta st x with
    | none => rw [hcd] at hfx; exact absurd hfx (by simp)
    | some d0 =>
      rw [hcd, Option.map_some'] at hfx
      have hxn : x = n := by
        injection hfx with h2
        exact congrArg Prod.fst h2
      have hd0 : d0 = d := by
        injection hfx with h2
        exact congrArg Prod.snd h2
      subst hxn
      subst hd0
      have hspec := computeDelta_spec st x hkeysC hkeysU hcapC hcapU hker
      have hd : d0 =
          ⟨collectPure (fun _ => true) st.log_store.uncommitted_logs [],
           collectPure (condCommitted st.known x)
             st.log_store.committed_logs []⟩ := by
        rw [hspec.1] at hcd
        injection hcd with h2
        exact h2.symm
      have hb : (!(d0.uncommitted.isEmpty && d0.committed.isEmpty)) = true :=
        hmem2.2
      refine ⟨hx, (bnot_eq_true _).mp hb, ?_, ?_⟩
      · intro k rep
        rw [hd]
        exact hspec.2.1 k rep
      · intro k rep
        rw [hd]
        exact hspec.2.2 k rep
  · intro n hn d hcd hne2
    obtain ⟨y, hy, hfy0⟩ := hmm.2 n hn
    have hfy : (computeDelta st n).map (fun d => (n, d)) = some y := hfy0
    rw [hcd, Option.map_some'] at hfy
    have hyd : y = (n, d) := by injection hfy with h2; exact h2.symm
    subst hyd
    rw [hmsgs]
    unfold gossipMsgsOf
    refine List.mem_filter.mpr ⟨hy, ?_⟩
    show (!(d.uncommitted.isEmpty && d.committed.isEmpty)) = true
    exact (bnot_eq_true _).mpr hne2

/-- C6: the neighbor n2 is already known to hold the only uncommitted entry,
yet the gossip trigger still sends that very entry to n2 — contradicting "no
entry the neighbor is already known to have". -/
theorem c6_counterexample :
    (handle_trigger_gossip st_c6).map (fun r => r.2) = some [("n2", d_c6)] ∧
    e_c6 ∈ tierEntries d_c6.uncommitted "x" ∧
    tierFind ((kvGet st_c6.known "n2").getD ⟨[], []⟩).uncommitted "x" e_c6 =
      some e_c6 := by
  decide

/-- C6 witness: the amended characterization evaluated on the concrete
trigger. -/
theorem c6_witness :
    tierFind d_c6.uncommitted "x" e_c6 =
      tierFind st_c6.log_store.uncommitted_logs "x" e_c6 :=
  (((c6_amended st_c6 st2_c6 [("n2", d_c6)] (by decide) (by decide) (by decide)
      (by decide) (by decide) (by decide) (by decide) (by decide)).1 "n2" d_c6
      (by decide)).2.2.2) "x" e_c6

end ClaimC6

section ClaimC1

theorem kvSet_of_not_key {α β : Type} [DecidableEq α] :
    ∀ (m : List (α × β)) (a : α) (b : β), a ∉ m.map (fun p => p.1) →
      kvSet m a b = m ++ [(a, b)] := by
  intro m
  induction m with
  | nil => intro a b _; rfl
  | cons p rest ih =>
    intro a b h
    rw [List.map_cons] at h
    have hne : ¬ p.1 = a := fun he => h (by rw [he]; exact List.mem_cons_self _ _)
    show (if p.1 = a then (a, b) :: rest else p :: kvSet rest a b) = _
    rw [if_neg hne, ih a b (fun hr => h (List.mem_cons_of_mem p.1 hr))]
    rfl

theorem foldl_kvSet_fresh {α β : Type} [DecidableEq α] :
    ∀ (ps m : List (α × β)),
      (∀ q ∈ ps, q.1 ∉ m.map (fun p => p.1)) →
      (ps.map (fun p => p.1)).Nodup →
      ps.foldl (fun acc q => kvSet acc q.1 q.2) m = m ++ ps := by
  intro ps
  induction ps with
  | nil => intro m _ _; simp
  | cons q ps ih =>
    intro m hfresh hnd
    rw [List.map_cons] at hnd
    have hnd2 := List.nodup_cons.mp hnd
    rw [List.foldl_cons, kvSet_of_not_key m q.1 q.2
      (hfresh q (List.mem_cons_self q ps))]
    rw [ih (m ++ [(q.1, q.2)]) ?_ hnd2.2]
    · rw [List.append_assoc]
      rfl
    · intro r hr
      rw [List.map_append]
      intro hmem
      rcases List.mem_append.mp hmem with h1 | h1
      · exact hfresh r (List.mem_cons_of_mem q hr) h1
      · have : r.1 = q.1 := by simpa using h1
        exact hnd2.1 (this ▸ List.mem_map_of_mem (fun p => p.1) hr)

theorem foldl_entries_kvSet_fresh :
    ∀ (es : List LogEntry) (m : List (Nat × Nat)),
      (∀ e ∈ es, e.offset ∉ m.map (fun p => p.1)) →
      (es.map (fun e => e.offset)).Nodup →
      es.foldl (fun m l => kvSet m l.offset l.msg) m =
        m ++ es.map (fun l => (l.offset, l.msg)) := by
  intro es
  induction es with
  | nil => intro m _ _; simp
  | cons e es ih =>
    intro m hfresh hnd
    rw [List.map_cons] at hnd
    have hnd2 := List.nodup_cons.mp hnd
    rw [List.foldl_cons, kvSet_of_not_key m e.offset e.msg
      (hfresh e (List.mem_cons_self e es))]
    rw [ih (m ++ [(e.offset, e.msg)]) ?_ hnd2.2]
    · rw [List.map_cons, List.append_assoc]
      rfl
    · intro x hx
      rw [List.map_append]
      intro hmem
      rcases List.mem_append.mp hmem with h1 | h1
      · exact hfresh x (List.mem_cons_of_mem e hx) h1
      · have : x.offset = e.offset := by simpa using h1
        exact hnd2.1 (this ▸ List.mem_map_of_mem (fun e => e.offset) hx)

theorem filter_and_map_eq (entries : List LogEntry) (o : Nat)
    (hn : ((entries.filter (fun l => decide (o ≤ l.offset))).map
      (fun e => e.offset)).Nodup) :
    filter_and_map_by_offset entries o =
      (entries.filter (fun l => decide (o ≤ l.offset))).map
        (fun l => (l.offset, l.msg)) := by
  unfold filter_and_map_by_offset
  rw [foldl_entries_kvSet_fresh _ [] (by simp) hn]
  simp

theorem tierEntries_eq_nil_of_not_contains (l : Logs) (k : KeyId)
    (h : logsContainsKey l k = false) : tierEntries l k = [] := by
  unfold logsContainsKey at h
  unfold tierEntries
  cases hg : logsGet l k with
  | none => rfl
  | some s => rw [hg] at h; simp at h

theorem filter_logs_eq (l : Logs) (k : KeyId) (o : Nat)
    (hn : (((tierEntries l k).filter (fun e => decide (o ≤ e.offset))).map
      (fun e => e.offset)).Nodup) :
    filter_logs l k o =
      ((tierEntries l k).filter (fun e => decide (o ≤ e.offset))).map
        (fun l => (l.offset, l.msg)) := by
  unfold filter_logs
  cases h : logsContainsKey l k with
  | true => rw [if_pos rfl, filter_and_map_eq _ _ hn]
  | false =>
    rw [if_neg (by simp), tierEntries_eq_nil_of_not_contains l k h]
    rfl

theorem mem_insertSortedPair (p q : Nat × Nat) :
    ∀ l : List (Nat × Nat), q ∈ insertSortedPair p l ↔ q = p ∨ q ∈ l := by
  intro l
  induction l with
  | nil => simp [insertSortedPair]
  | cons r rest ih =>
    unfold insertSortedPair
    by_cases h : p.1 ≤ r.1
    · rw [if_pos h]
      simp [List.mem_cons]
    · rw [if_neg h]
      rw [List.mem_cons, ih, List.mem_cons]
      tauto

theorem mem_sortPairs (q : Nat × Nat) :
    ∀ l : List (Nat × Nat), q ∈ sortPairs l ↔ q ∈ l := by
  intro l
  induction l with
  | nil => simp [sortPairs]
  | cons x l ih =>
    have hstep : sortPairs (x :: l) = insertSortedPair x (sortPairs l) := rfl
    rw [hstep, mem_insertSortedPair, ih, List.mem_cons]

theorem sorted_insertSortedPair (p : Nat × Nat) :
    ∀ l : List (Nat × Nat), l.Sorted (fun a b => a.1 ≤ b.1) →
      (insertSortedPair p l).Sorted (fun a b => a.1 ≤ b.1) := by
  intro l
  induction l with
  | nil => intro _; simp [insertSortedPair]
  | cons q rest ih =>
    intro h
    have h2 := List.sorted_cons.mp h
    unfold insertSortedPair
    by_cases hpq : p.1 ≤ q.1
    · rw [if_pos hpq]
      refine List.sorted_cons.mpr ⟨?_, h⟩
      intro b hb
      rcases List.mem_cons.mp hb with h1 | h1
      · rw [h1]; exact hpq
      · exact le_trans hpq (h2.1 b h1)
    · rw [if_neg hpq]
      refine List.sorted_cons.mpr ⟨?_, ih h2.2⟩
      intro b hb
      rcases (mem_insertSortedPair p b rest).mp hb with h1 | h1
      · rw [h1]; exact le_of_not_le hpq
      · exact h2.1 b h1

theorem sorted_sortPairs :
    ∀ l : List (Nat × Nat), (sortPairs l).Sorted (fun a b => a.1 ≤ b.1) := by
  intro l
  induction l with
  | nil => simp [sortPairs]
  | cons x l ih =>
    have hstep : sortPairs (x :: l) = insertSortedPair x (sortPairs l) := rfl
    rw [hstep]
    exact sorted_insertSortedPair x (sortPairs l) ih

/-- C1: poll must return every stored entry regardless of tier. On the code a
stored entry in the live uncommitted tier with offset 0 is absent from the
reply to `poll{x: 0}`: the reply maps "x" to the empty list. -/
theorem c1_counterexample :
    tierFind st_c1.log_store.uncommitted_logs "x" e_c1 = some e_c1 ∧
    e_c1.offset = 0 ∧
    poll_reply st_c1 [("x", 0)] = [("x", [])] := by
  decide

/-- C1 (amended): for a polled key at offset `o`, the reply contains exactly
the entries of the two anchored stores (anchored-committed and
anchored-uncommitted) with `offset >= o`, as (offset, value) pairs sorted
ascending by offset; entries in the live uncommitted and committed tiers are
not consulted. Stated under the invariant that offsets are unique per key. -/
theorem c1_amended (st : NodeState) (k : KeyId) (o : Nat)
    (hn : (((tierEntries st.anchored_committed_logs k ++
        tierEntries st.anchored_uncommitted_logs k).filter
          (fun e => decide (o ≤ e.offset))).map (fun e => e.offset)).Nodup) :
    ∃ ps, poll_reply st [(k, o)] = [(k, ps)] ∧
      ps.Sorted (fun a b => a.1 ≤ b.1) ∧
      (∀ off v, (off, v) ∈ ps ↔ ∃ e,
        (e ∈ tierEntries st.anchored_committed_logs k ∨
         e ∈ tierEntries st.anchored_uncommitted_logs k) ∧
        o ≤ e.offset ∧ e.offset = off ∧ e.msg = v) := by
  rw [List.filter_append, List.map_append] at hn
  have hn3 := List.nodup_append.mp hn
  have hCmap := filter_logs_eq st.anchored_committed_logs k o hn3.1
  have hUmap := filter_logs_eq st.anchored_uncommitted_logs k o hn3.2.1
  have hreply : poll_reply st [(k, o)] =
      [(k, sortPairs ((filter_logs st.anchored_uncommitted_logs k o).foldl
        (fun m q => kvSet m q.1 q.2)
        (filter_logs st.anchored_committed_logs k o)))] := rfl
  have hkeysU : ((((tierEntries st.anchored_uncommitted_logs k).filter
      (fun e => decide (o ≤ e.offset))).map (fun l => (l.offset, l.msg))).map
        (fun p => p.1)) =
      ((tierEntries st.anchored_uncommitted_logs k).filter
        (fun e => decide (o ≤ e.offset))).map (fun e => e.offset) := by
    rw [List.map_map]
    rfl
  have hkeysC : ((((tierEntries st.anchored_committed_logs k).filter
      (fun e => decide (o ≤ e.offset))).map (fun l => (l.offset, l.msg))).map
        (fun p => p.1)) =
      ((tierEntries st.anchored_committed_logs k).filter
        (fun e => decide (o ≤ e.offset))).map (fun e => e.offset) := by
    rw [List.map_map]
    rfl
  have hfold : (filter_logs st.anchored_uncommitted_logs k o).foldl
      (fun m q => kvSet m q.1 q.2)
      (filter_logs st.anchored_committed_logs k o) =
      filter_logs st.anchored_committed_logs k o ++
        filter_logs st.anchored_uncommitted_logs k o := by
    rw [hCmap, hUmap]
    apply foldl_kvSet_fresh
    · intro q hq
      rw [hkeysC]
      intro hmem
      have hq1 : q.1 ∈ ((tierEntries st.anchored_uncommitted_logs k).filter
          (fun e => decide (o ≤ e.offset))).map (fun e => e.offset) := by
        obtain ⟨e, he, hqe⟩ := List.mem_map.mp hq
        rw [← hqe]
        exact List.mem_map_of_mem (fun e => e.offset) he
      exact hn3.2.2 hmem hq1
    · rw [hkeysU]
      exact hn3.2.1
  refine ⟨_, by rw [hreply, hfold], sorted_sortPairs _, ?_⟩
  intro off v
  rw [mem_sortPairs, List.mem_append, hCmap, hUmap]
  constructor
  · intro h
    rcases h with h1 | h1
    · obtain ⟨e, he, hpe⟩ := List.mem_map.mp h1
      have he2 := List.mem_filter.mp he
      refine ⟨e, Or.inl he2.1, of_decide_eq_true he2.2, ?_, ?_⟩
      · exact congrArg Prod.fst hpe
      · exact congrArg Prod.snd hpe
    · obtain ⟨e, he, hpe⟩ := List.mem_map.mp h1
      have he2 := List.mem_filter.mp he
      refine ⟨e, Or.inr he2.1, of_decide_eq_true he2.2, ?_, ?_⟩
      · exact congrArg Prod.fst hpe
      · exact congrArg Prod.snd hpe
  · intro h
    obtain ⟨e, hmem, hle, hoff, hmsg⟩ := h
    rcases hmem with h1 | h1
    · refine Or.inl (List.mem_map.mpr ⟨e, ?_, ?_⟩)
      · exact List.mem_filter.mpr ⟨h1, decide_eq_true hle⟩
      · rw [hoff, hmsg]
    · refine Or.inr (List.mem_map.mpr ⟨e, ?_, ?_⟩)
      · exact List.mem_filter.mpr ⟨h1, decide_eq_true hle⟩
      · rw [hoff, hmsg]

/-- C1 witness: the amended poll characterization on a concrete state with
anchored entries on both sides of the requested offset. -/
theorem c1_witness :
    ∃ ps, poll_reply stw_c1 [("x", 1)] = [("x", ps)] ∧
      ps.Sorted (fun a b => a.1 ≤ b.1) ∧
      (∀ off v, (off, v) ∈ ps ↔ ∃ e,
        (e ∈ tierEntries stw_c1.anchored_committed_logs "x" ∨
         e ∈ tierEntries stw_c1.anchored_uncommitted_logs "x") ∧
        1 ≤ e.offset ∧ e.offset = off ∧ e.msg = v) :=
  c1_amended stw_c1 "x" 1 (by decide)

end ClaimC1
